import Mathlib

/-!
Verification of the taxonomic consensus engine in scripts/blastlca.py.

The Python source is shallowly embedded below. Conventions used throughout:

* Bitscores and thresholds are rationals. The source converts every bitscore
  with float() and does ordinary arithmetic on it; none of the claims checked
  here depends on floating-point rounding, so exact rational arithmetic is
  used.
* The dual-keyed taxonomy dictionary (a Python defaultdict mapping both names
  and ids to Node objects) is an association list searched front to back;
  add_node prepends its two bindings, so the most recent binding wins, exactly
  as dictionary assignment overwrites.
* A missing key in the defaultdict yields an empty dict, and attribute access
  on it raises AttributeError. Lookups are therefore Option valued, and each
  call site either skips (where the source catches the exception) or fails
  (where it does not).
* Loops that climb the tree via parent ids can diverge on a cyclic input, so
  they take a fuel parameter; fuel exhaustion and an uncaught exception both
  surface as none. Theorems about well-formed trees hypothesise that the
  relevant walks terminate.
* Taxonomy-file rows are modelled after the tab split, as token lists.
* Counter.most_common semantics (CPython, documented): entries are ordered by
  decreasing count, ties in first-encountered order; most_common applied to a
  nonempty counter never fails.
-/

/-- A taxonomy node: mirrors class Node (taxonomy, node_id, parent_id). -/
structure Node where
  taxonomy : String
  node_id : String
  parent_id : String
deriving DecidableEq

/-- The dual-keyed tree dictionary, most recent binding first. -/
abbrev TreeMap := List (String × Node)

/-- Dictionary lookup: first binding wins (bindings are prepended on update). -/
def lookupT : TreeMap → String → Option Node
  | [], _ => none
  | (k, nd) :: tr, key => if key = k then some nd else lookupT tr key

/-- Tree.add_node: binds both the taxonomy name and the node id to the node.
The two fresh bindings shadow any older ones, as dict assignment does. -/
def addNode (tr : TreeMap) (taxonomy node_id parent_id : String) : TreeMap :=
  let nd : Node := ⟨taxonomy, node_id, parent_id⟩
  (node_id, nd) :: (taxonomy, nd) :: tr

/-- The two ways a row can abort Tree construction: an IndexError from
indexing toks[1] / toks[2] on a short row, and the AssertionError from the
id = parent_id integrity assert. -/
inductive BuildErr where
  | indexError
  | assertionError
deriving DecidableEq

/-- The guard in Tree.init before the length check, with Python evaluation
order: toks[1] is read first (IndexError on a row of fewer than two fields);
if it is "1" the conjunction short-circuits; otherwise toks[2] is read
(IndexError on a two-field row); if both differ from "1" the source asserts
that they differ from each other. -/
def checkRow (toks : List String) : Except BuildErr Unit :=
  match toks.get? 1 with
  | none => .error .indexError
  | some t1 =>
    if t1 = "1" then .ok ()
    else
      match toks.get? 2 with
      | none => .error .indexError
      | some t2 =>
        if t2 = "1" then .ok ()
        else if t1 = t2 then .error .assertionError
        else .ok ()

/-- One iteration of the Tree.init loop over a tokenised row: run the guard,
then skip the row with a warning when it does not have exactly three fields,
else add the node. -/
def stepRow (tr : TreeMap) (toks : List String) : Except BuildErr TreeMap := do
  checkRow toks
  if toks.length = 3 then
    pure (addNode tr (toks.getD 0 "") (toks.getD 1 "") (toks.getD 2 ""))
  else
    pure tr

/-- Tree.init over a list of tokenised rows (each row is the tab split of a
stripped line). The first uncaught exception aborts construction. -/
def buildTree (rows : List (List String)) : Except BuildErr TreeMap :=
  rows.foldlM stepRow []

/-- The bottom-up walk shared by lca, filter_taxonomy_list and
taxonomic_lineage: starting from an id, collect the ids visited by
"while current != '1': ...; current = tree[current].parent_id", i.e. the
non-root ancestors-or-self in bottom-up order. none means the walk ran out
of fuel (a cycle) or hit a key whose lookup fails (AttributeError). -/
def upList (tr : TreeMap) : Nat → String → Option (List String)
  | 0, cur => if cur = "1" then some [] else none
  | fuel + 1, cur =>
    if cur = "1" then some []
    else
      match lookupT tr cur with
      | none => none
      | some nd => (upList tr fuel nd.parent_id).map (cur :: ·)

/-- The walk a given taxon performs inside lca: resolve the taxon to its
node_id, then climb. -/
def chainOf (tr : TreeMap) (fuel : Nat) (t : String) : Option (List String) :=
  (lookupT tr t).bind fun nd => upList tr fuel nd.node_id

/-- x is among the non-root ancestors-or-self visited for taxon t. -/
def InChain (tr : TreeMap) (fuel : Nat) (t x : String) : Prop :=
  ∃ l, chainOf tr fuel t = some l ∧ x ∈ l

/-- Tree.filter_taxonomy_list. For each taxon the source resolves it
(tree[taxonomy].node_id) inside "try ... except TypeError"; a missing key
raises AttributeError, which that handler does not catch, so an unknown
taxon aborts the whole call. Present taxa are kept when their tree depth
(the length of the bottom-up walk) is at least min_tree_depth. -/
def filterTaxonomyList (tr : TreeMap) (fuel : Nat)
    (taxonomy_list : List String) (min_tree_depth : Nat) :
    Except Unit (List String) :=
  taxonomy_list.foldlM
    (fun acc t =>
      match lookupT tr t with
      | none => .error ()
      | some nd =>
        match upList tr fuel nd.node_id with
        | none => .error ()
        | some l => if l.length < min_tree_depth then .ok acc else .ok (acc ++ [t]))
    []

/-- The threshold normalisation at the top of Tree.lca: values above 1 become
1, values below 0.01 become 0.1, everything else is used as given. -/
def clampThreshold (t : ℚ) : ℚ :=
  if 1 < t then 1
  else if t < 1 / 100 then 1 / 10
  else t

/-- The inner while loop of Tree.lca for one taxon. counts is the running
defaultdict(int); the loop stops at the root without counting it, increments
the current id, returns tree[current].taxonomy as soon as the incremented
count reaches the target, and otherwise climbs to the parent. An uncaught
AttributeError (missing id) or a cycle yields none. -/
def lcaWalk (tr : TreeMap) (target : ℚ) :
    Nat → String → (String → Nat) → Option ((String → Nat) ⊕ String)
  | 0, cur, counts => if cur = "1" then some (.inl counts) else none
  | fuel + 1, cur, counts =>
    if cur = "1" then some (.inl counts)
    else
      let counts' : String → Nat := fun y => if y = cur then counts y + 1 else counts y
      if target ≤ (counts' cur : ℚ) then
        match lookupT tr cur with
        | none => none
        | some nd => some (.inr nd.taxonomy)
      else
        match lookupT tr cur with
        | none => none
        | some nd => lcaWalk tr target fuel nd.parent_id counts'

/-- The outer for loop of Tree.lca: taxa whose resolution raises
AttributeError are skipped, otherwise the walk runs; the first walk that
reaches the target ends the call, and if none does the literal string
"root" is returned. -/
def lcaList (tr : TreeMap) (target : ℚ) (fuel : Nat) :
    List String → (String → Nat) → Option String
  | [], _ => some "root"
  | t :: rest, counts =>
    match lookupT tr t with
    | none => lcaList tr target fuel rest counts
    | some nd =>
      match lcaWalk tr target fuel nd.node_id counts with
      | none => none
      | some (.inl counts') => lcaList tr target fuel rest counts'
      | some (.inr res) => some res

/-- Tree.lca: clamp the threshold, set count_target = len(taxonomies) *
threshold, and run the counting walks with an initially empty counter. -/
def lca (tr : TreeMap) (fuel : Nat) (taxonomies : List String) (threshold : ℚ) :
    Option String :=
  lcaList tr ((taxonomies.length : ℚ) * clampThreshold threshold) fuel
    taxonomies (fun _ => 0)

/-- BlastHits state: two parallel deques, left to right, kept sorted by
non-decreasing bitscore by add. -/
structure BlastHits where
  names : List String
  bitscores : List ℚ
deriving DecidableEq

/-- bisect.bisect_left on the bitscore deque: the leftmost position at which
the score can be inserted while keeping the sorted order, i.e. the index of
the first element that is not smaller. -/
def bisectLeft : List ℚ → ℚ → Nat
  | [], _ => 0
  | x :: xs, s => if x < s then bisectLeft xs s + 1 else 0

/-- deque.insert(idx, a): insert at the given position (append when the index
runs past the end). -/
def insertAt : Nat → α → List α → List α
  | 0, a, l => a :: l
  | _ + 1, a, [] => [a]
  | n + 1, a, x :: xs => x :: insertAt n a xs

/-- The insertion half of BlastHits.add: place the pair at the bisect_left
position in both deques, then, if the size now exceeds max_hits, popleft
both deques once. -/
def insertBound (max_hits : Nat) (b : BlastHits) (taxonomy : String) (s : ℚ) :
    BlastHits :=
  let idx := bisectLeft b.bitscores s
  let ns := insertAt idx taxonomy b.names
  let bs := insertAt idx s b.bitscores
  if max_hits < ns.length then ⟨ns.tail, bs.tail⟩ else ⟨ns, bs⟩

/-- BlastHits.add. The incoming score is first run through the top_fraction
gate: when top_fraction is truthy (present and nonzero) and the accumulator
is nonempty, a score below bitscores[-1] - bitscores[-1] * top_fraction is
replaced by None. The survivor is inserted only if it is truthy, so a zero
score is never inserted. -/
def addHit (b : BlastHits) (taxonomy : String) (bitscore : ℚ)
    (max_hits : Nat) (top_fraction : Option ℚ) : BlastHits :=
  let s? : Option ℚ :=
    match top_fraction with
    | none => some bitscore
    | some tf =>
      if tf ≠ 0 ∧ b.bitscores ≠ [] then
        if bitscore < b.bitscores.getLastD 0 - b.bitscores.getLastD 0 * tf then
          none
        else some bitscore
      else some bitscore
  match s? with
  | none => b
  | some s => if s ≠ 0 then insertBound max_hits b taxonomy s else b

/-- One recorded call to BlastHits.add (max_hits is fixed per run below, as
the claims fix it). -/
structure AddCall where
  taxonomy : String
  bitscore : ℚ
  top_fraction : Option ℚ
deriving DecidableEq

/-- A fresh BlastHits() followed by a sequence of add calls. -/
def applyAdds (max_hits : Nat) (calls : List AddCall) : BlastHits :=
  calls.foldl (fun b c => addHit b c.taxonomy c.bitscore max_hits c.top_fraction)
    ⟨[], []⟩

/-- BlastHits.best_hit: the name at the high-bitscore end (names[-1]);
IndexError on an empty deque surfaces as none. -/
def bestHit (b : BlastHits) : Option String :=
  b.names.getLast?

/-- The keys of Counter(l) in first-encountered order (Python dict insertion
order). -/
def uniqKeys (l : List String) : List String :=
  l.foldl (fun acc x => if x ∈ acc then acc else acc ++ [x]) []

/-- Counter(l).most_common(1)[0][0]: the earliest-encountered key of maximal
count. CPython computes this with max over the counter items keyed by count,
which keeps the first maximal item. Empty input gives "" (the source would
raise IndexError; it is never called on an empty counter). -/
def mostCommonKey (l : List String) : String :=
  match uniqKeys l with
  | [] => ""
  | k :: ks => ks.foldl (fun best k2 => if l.count best < l.count k2 then k2 else best) k

/-- deque.index(a): the leftmost index of a, ValueError (none) when absent. -/
def indexLeft : List String → String → Option Nat
  | [], _ => none
  | x :: xs, a => if x = a then some 0 else (indexLeft xs a).map (· + 1)

/-- BlastHits.majority, including its in-place effect. When no name repeats it
returns best_hit() and leaves the state alone. Otherwise it takes the top
Counter key, reverses the names deque in place (the bitscores deque is not
touched), finds the leftmost index of that key in the reversed deque, and
returns the name there. none models the IndexError of best_hit on an empty
accumulator. -/
def majority (b : BlastHits) : Option (String × BlastHits) :=
  if b.names.length = (uniqKeys b.names).length then
    (bestHit b).map fun r => (r, b)
  else
    let most_common := mostCommonKey b.names
    let names' := b.names.reverse
    match indexLeft names' most_common with
    | none => none
    | some idx => (names'.get? idx).map fun r => (r, ⟨names', b.bitscores⟩)

/-- Counter(items).most_common()[1][1] with the source's IndexError fallback
to 0: the largest count among keys other than the given one, 0 when there is
no other key. -/
def maxCountExcluding (items : List String) (key : String) : Nat :=
  ((uniqKeys items).filter (· ≠ key)).foldl (fun m k => max m (items.count k)) 0

/-- The runner-up count c2 used by nettleton_pvalue: when the candidate key is
the top Counter entry, the count of the second entry (0 when there is none);
otherwise the count of the top entry itself. -/
def nettletonRunnerUp (items : List String) (key : String) : Nat :=
  if mostCommonKey items = key then maxCountExcluding items key
  else items.count (mostCommonKey items)

/-- The outcome of nettleton_pvalue: either the early p-value 1, or the
likelihood-ratio branch, kept symbolically as the pair (c1, c2) that
determines t = 2 * (c2 * ln (2 c2 / (c1 + c2)) + c1 * ln (2 c1 / (c1 + c2)))
(first summand dropped when c2 = 0) and the returned erfc (sqrt (t / 2)),
a transcendental value the claims never inspect. -/
inductive NettletonResult where
  | one
  | stat (c1 c2 : Nat)
deriving DecidableEq

/-- nettleton_pvalue: assert key in items (AssertionError as .error), return 1
for a singleton list, compute the runner-up count c2, return 1 when
c1 is at most c2, and otherwise enter the statistic branch. -/
def nettletonPvalue (items : List String) (key : String) :
    Except Unit NettletonResult :=
  if key ∈ items then
    if items.length = 1 then .ok .one
    else
      let c1 := items.count key
      let c2 := nettletonRunnerUp items key
      if c1 ≤ c2 then .ok .one
      else .ok (.stat c1 c2)
  else .error ()

/-- The claimed BlastHits data invariant: bitscores sorted non-decreasingly,
the two deques of equal length, and the size bounded by max_hits. -/
def BlastHitsInv (max_hits : Nat) (b : BlastHits) : Prop :=
  b.bitscores.Sorted (· ≤ ·) ∧
  b.names.length = b.bitscores.length ∧
  b.names.length ≤ max_hits

/-- A small concrete taxonomy used by the witnesses: ids 1 (root), 2, 3, 4
form the chain 4 → 3 → 2 → 1, with both names and ids bound as the source
does. -/
def sampleTree : TreeMap :=
  [("root", ⟨"root", "1", "1"⟩), ("1", ⟨"root", "1", "1"⟩),
   ("bacteria", ⟨"bacteria", "2", "1"⟩), ("2", ⟨"bacteria", "2", "1"⟩),
   ("proteo", ⟨"proteo", "3", "2"⟩), ("3", ⟨"proteo", "3", "2"⟩),
   ("gamma", ⟨"gamma", "4", "3"⟩), ("4", ⟨"gamma", "4", "3"⟩)]

/-- C10: add called with a zero bitscore leaves any accumulator unchanged,
whatever max_hits and top_fraction are: after the top_fraction gate the
score is either None or 0.0, and both are falsy, so the insertion guarded
by "if bitscore:" never runs. -/
theorem add_zero_bitscore_noop (b : BlastHits) (taxonomy : String)
    (max_hits : Nat) (top_fraction : Option ℚ) :
    addHit b taxonomy 0 max_hits top_fraction = b := by
  unfold addHit
  cases top_fraction with
  | none => simp
  | some tf =>
    dsimp only
    by_cases hg : tf ≠ 0 ∧ b.bitscores ≠ []
    · rw [if_pos hg]
      by_cases hlt : (0 : ℚ) < b.bitscores.getLastD 0 - b.bitscores.getLastD 0 * tf
      · rw [if_pos hlt]
      · rw [if_neg hlt]; simp
    · rw [if_neg hg]; simp

/-- C6 counterexample: the threshold argument 1/20 = 0.05 lies below the
claimed valid range [0.1, 1], yet the normalisation leaves it unchanged
(only values below 0.01 are raised to 0.1), so the effective threshold used
for count_target is 0.05, outside [0.1, 1]. -/
theorem clamp_threshold_gap_counterexample :
    clampThreshold (1 / 20) = 1 / 20 ∧ clampThreshold (1 / 20) < 1 / 10 := by
  norm_num [clampThreshold]

/-- C6 amended: the effective threshold used by Tree.lca always lies in
[0.01, 1]: arguments above 1 are clamped to 1, arguments below 0.01 are
normalised up to 0.1, and everything already in [0.01, 1] is used as
given (so values in [0.01, 0.1) stay below 0.1). -/
theorem clamp_threshold_amended (t : ℚ) :
    1 / 100 ≤ clampThreshold t ∧ clampThreshold t ≤ 1 ∧
    (1 < t → clampThreshold t = 1) ∧
    (t < 1 / 100 → clampThreshold t = 1 / 10) ∧
    (1 / 100 ≤ t → t ≤ 1 → clampThreshold t = t) := by
  unfold clampThreshold
  split_ifs with h1 h2
  · refine ⟨by norm_num, le_refl 1, fun _ => rfl, fun h => absurd h (by linarith), ?_⟩
    intro _ h; exact absurd h1 (not_lt.mpr h)
  · refine ⟨by norm_num, by norm_num, fun h => absurd h h1, fun _ => rfl, ?_⟩
    intro h _; exact absurd h2 (not_lt.mpr h)
  · exact ⟨not_lt.mp h2, not_lt.mp h1, fun h => absurd h h1,
      fun h => absurd h h2, fun _ _ => rfl⟩

/-- Witness for clamp_threshold_amended at the concrete argument 2. -/
theorem clamp_threshold_amended_witness : clampThreshold 2 = 1 :=
  (clamp_threshold_amended 2).2.2.1 (by norm_num)

/-- C1 counterexample: the accumulator reached by add("A", 10) then
add("B", 100) holds bitscores [10, 100], so the claimed floor
lowest - lowest * top_fraction with top_fraction = 0.3 is 7, and the
incoming bitscore 50 is far above it; yet add discards the hit, because
the source compares against bitscores[-1] (the highest retained score,
giving the floor 70), not against the lowest. -/
theorem add_top_fraction_uses_highest_not_lowest :
    applyAdds 10 [⟨"A", 10, none⟩, ⟨"B", 100, none⟩]
        = ⟨["A", "B"], [10, 100]⟩ ∧
    addHit ⟨["A", "B"], [10, 100]⟩ "C" 50 10 (some (3 / 10))
        = ⟨["A", "B"], [10, 100]⟩ ∧
    ¬ ((50 : ℚ) < 10 - 10 * (3 / 10)) := by
  refine ⟨by decide, ?_, by norm_num⟩
  norm_num [addHit]; rfl

/-- C1 amended: when top_fraction is truthy and the accumulator is nonempty,
a nonzero incoming bitscore is discarded exactly when it falls below
bitscores[-1] - bitscores[-1] * top_fraction, the floor computed from the
highest retained bitscore; otherwise the hit goes through the bounded
insertion. -/
theorem add_top_fraction_floor_amended (max_hits : Nat) (b : BlastHits)
    (taxonomy : String) (s tf : ℚ)
    (hne : b.bitscores ≠ []) (htf : tf ≠ 0) (hs : s ≠ 0) :
    addHit b taxonomy s max_hits (some tf) =
      if s < b.bitscores.getLastD 0 - b.bitscores.getLastD 0 * tf then b
      else insertBound max_hits b taxonomy s := by
  unfold addHit
  dsimp only
  rw [if_pos ⟨htf, hne⟩]
  by_cases hlt : s < b.bitscores.getLastD 0 - b.bitscores.getLastD 0 * tf
  · rw [if_pos hlt, if_pos hlt]
  · rw [if_neg hlt, if_neg hlt]; simp [hs]

/-- Witness for add_top_fraction_floor_amended: one-element accumulator,
top_fraction 1/2, incoming score 3 below the floor 5. -/
theorem add_top_fraction_floor_amended_witness :
    addHit ⟨["A"], [10]⟩ "C" 3 7 (some (1 / 2)) =
      if (3 : ℚ) < ([10] : List ℚ).getLastD 0 - ([10] : List ℚ).getLastD 0 * (1 / 2)
      then (⟨["A"], [10]⟩ : BlastHits)
      else insertBound 7 ⟨["A"], [10]⟩ "C" 3 :=
  add_top_fraction_floor_amended 7 ⟨["A"], [10]⟩ "C" 3 (1 / 2)
    (by decide) (by norm_num) (by norm_num)

/-- C7: nettleton_pvalue returns exactly 1 for every singleton input, and
whenever the candidate count c1 does not strictly exceed the runner-up
count c2 as the test computes it. -/
theorem nettleton_pvalue_one_cases (items : List String) (key : String)
    (hkey : key ∈ items)
    (h : items.length = 1 ∨ items.count key ≤ nettletonRunnerUp items key) :
    nettletonPvalue items key = .ok .one := by
  unfold nettletonPvalue
  rw [if_pos hkey]
  by_cases hl : items.length = 1
  · rw [if_pos hl]
  · rcases h with h | h
    · exact absurd h hl
    · rw [if_neg hl, if_pos h]

/-- Witness for nettleton_pvalue_one_cases: the two top counts tie on
["a", "b"] with candidate "a". -/
theorem nettleton_pvalue_one_cases_witness :
    nettletonPvalue ["a", "b"] "a" = .ok .one :=
  nettleton_pvalue_one_cases ["a", "b"] "a" (by decide) (.inr (by decide))

/-- C3 (code bug): a row with a single field aborts Tree construction with an
IndexError (toks[1] is read by the integrity guard before the length check
can skip the row), a row with id = parent_id different from "1" raises the
AssertionError exactly as claimed, and a malformed row with four fields is
skipped non-fatally. -/
theorem tree_build_short_row_raises :
    buildTree [["abc"]] = .error .indexError ∧
    buildTree [["name", "7", "7"]] = .error .assertionError ∧
    buildTree [["a", "b", "c", "d"]] = .ok [] := by
  exact ⟨rfl, rfl, rfl⟩

/-- C4 (code bug): on the sample tree, depth filtering of present taxa works
as described (bacteria has depth 1 and is dropped, gamma has depth 3 and is
kept), but a single unknown taxon aborts the whole call with the uncaught
AttributeError instead of being silently dropped. -/
theorem filter_unknown_taxon_raises :
    filterTaxonomyList sampleTree 8 ["bacteria", "gamma"] 2 = .ok ["gamma"] ∧
    filterTaxonomyList sampleTree 8 ["bacteria", "unknown", "gamma"] 2
        = .error () := by
  exact ⟨rfl, rfl⟩

/-- C2 (code bug): the accumulator reached by adding X:1, Y:2, X:3, Y:4 holds
names ["X", "Y", "X", "Y"] with X and Y tied at count 2, and Y occupies the
highest-bitscore slot; yet majority() returns "X", the tied name whose first
occurrence comes earliest in the deque (the Counter tie-break), not the tied
name holding the best bitscore. -/
theorem majority_tie_ignores_bitscore :
    applyAdds 10 [⟨"X", 1, none⟩, ⟨"Y", 2, none⟩, ⟨"X", 3, none⟩, ⟨"Y", 4, none⟩]
        = ⟨["X", "Y", "X", "Y"], [1, 2, 3, 4]⟩ ∧
    (majority ⟨["X", "Y", "X", "Y"], [1, 2, 3, 4]⟩).map Prod.fst = some "X" ∧
    (["X", "Y", "X", "Y"] : List String).count "X"
        = (["X", "Y", "X", "Y"] : List String).count "Y" ∧
    bestHit ⟨["X", "Y", "X", "Y"], [1, 2, 3, 4]⟩ = some "Y" := by
  refine ⟨by decide, by decide, by decide, by decide⟩

theorem uniqKeys_mem_aux (l : List String) :
    ∀ (acc : List String) (y : String),
      y ∈ l.foldl (fun acc x => if x ∈ acc then acc else acc ++ [x]) acc →
      y ∈ acc ∨ y ∈ l := by
  induction l with
  | nil => intro acc y h; exact .inl h
  | cons x xs ih =>
    intro acc y h
    rcases ih _ y h with h' | h'
    · dsimp only at h'
      by_cases hx : x ∈ acc
      · rw [if_pos hx] at h'; exact .inl h'
      · rw [if_neg hx] at h'
        rcases List.mem_append.mp h' with h'' | h''
        · exact .inl h''
        · simp at h''; subst h''; exact .inr (List.mem_cons_self _ _)
    · exact .inr (List.mem_cons_of_mem _ h')

theorem uniqKeys_subset (l : List String) : ∀ y ∈ uniqKeys l, y ∈ l := by
  intro y h
  rcases uniqKeys_mem_aux l [] y h with h' | h'
  · simp at h'
  · exact h'

theorem uniqKeys_foldl_ne_nil (l : List String) :
    ∀ acc : List String, acc ≠ [] →
      l.foldl (fun acc x => if x ∈ acc then acc else acc ++ [x]) acc ≠ [] := by
  induction l with
  | nil => intro acc h; exact h
  | cons x xs ih =>
    intro acc h
    apply ih
    dsimp only
    by_cases hx : x ∈ acc
    · rw [if_pos hx]; exact h
    · rw [if_neg hx]; simp

theorem uniqKeys_ne_nil (l : List String) (h : l ≠ []) : uniqKeys l ≠ [] := by
  cases l with
  | nil => exact absurd rfl h
  | cons x xs =>
    show List.foldl _ (if x ∈ ([] : List String) then [] else [] ++ [x]) xs ≠ []
    rw [if_neg (List.not_mem_nil x)]
    exact uniqKeys_foldl_ne_nil xs [x] (by simp)

theorem argmax_foldl_mem (l : List String) :
    ∀ (ks : List String) (b : String), b ∈ l → (∀ k ∈ ks, k ∈ l) →
      ks.foldl (fun best k2 => if l.count best < l.count k2 then k2 else best) b ∈ l := by
  intro ks
  induction ks with
  | nil => intro b hb _; exact hb
  | cons k ks ih =>
    intro b hb hks
    apply ih
    · dsimp only
      by_cases h : l.count b < l.count k
      · rw [if_pos h]; exact hks k (List.mem_cons_self _ _)
      · rw [if_neg h]; exact hb
    · intro k2 hk2; exact hks k2 (List.mem_cons_of_mem _ hk2)

theorem mostCommonKey_mem (l : List String) (h : l ≠ []) : mostCommonKey l ∈ l := by
  unfold mostCommonKey
  have hu := uniqKeys_ne_nil l h
  cases hk : uniqKeys l with
  | nil => exact absurd hk hu
  | cons k ks =>
    apply argmax_foldl_mem
    · exact uniqKeys_subset l k (hk ▸ List.mem_cons_self _ _)
    · intro k2 hk2; exact uniqKeys_subset l k2 (hk ▸ List.mem_cons_of_mem _ hk2)

theorem indexLeft_of_mem {l : List String} {a : String} (h : a ∈ l) :
    ∃ i, indexLeft l a = some i ∧ l.get? i = some a := by
  induction l with
  | nil => simp at h
  | cons x xs ih =>
    by_cases hx : x = a
    · exact ⟨0, by simp [indexLeft, hx], by simp [hx]⟩
    · have : a ∈ xs := by
        rcases List.mem_cons.mp h with h' | h'
        · exact absurd h'.symm hx
        · exact h'
      obtain ⟨i, h1, h2⟩ := ih this
      exact ⟨i + 1, by simp [indexLeft, hx, h1], by simpa using h2⟩

/-- C9: on any accumulator whose names contain a repeat, majority() reverses
the names deque in place while leaving the bitscores deque untouched (so the
name-to-score pairing is the reversed one from then on), returns the top
Counter key, and a subsequent best_hit() reads the name that originally
occupied the lowest-bitscore position. -/
theorem majority_reverses_names_in_place (names : List String) (bs : List ℚ)
    (hrep : names.length ≠ (uniqKeys names).length) :
    majority ⟨names, bs⟩ = some (mostCommonKey names, ⟨names.reverse, bs⟩) ∧
    bestHit ⟨names.reverse, bs⟩ = names.head? := by
  have hne : names ≠ [] := by
    rintro rfl
    exact hrep rfl
  constructor
  · unfold majority
    dsimp only
    rw [if_neg hrep]
    have hmem : mostCommonKey names ∈ names.reverse :=
      List.mem_reverse.mpr (mostCommonKey_mem names hne)
    obtain ⟨i, hidx, hget⟩ := indexLeft_of_mem hmem
    rw [hidx]
    dsimp only
    rw [hget]
    rfl
  · unfold bestHit
    dsimp only
    exact List.getLast?_reverse names

/-- Witness for majority_reverses_names_in_place on names ["X", "Y", "X"]. -/
theorem majority_reverses_names_in_place_witness :
    majority ⟨["X", "Y", "X"], [1, 2, 3]⟩
        = some (mostCommonKey ["X", "Y", "X"],
            ⟨(["X", "Y", "X"] : List String).reverse, [1, 2, 3]⟩) ∧
    bestHit ⟨(["X", "Y", "X"] : List String).reverse, [1, 2, 3]⟩
        = (["X", "Y", "X"] : List String).head? :=
  majority_reverses_names_in_place ["X", "Y", "X"] [1, 2, 3] (by decide)

theorem length_insertAt (a : α) : ∀ (n : Nat) (l : List α),
    (insertAt n a l).length = l.length + 1 := by
  intro n
  induction n with
  | zero => intro l; rfl
  | succ n ih =>
    intro l
    cases l with
    | nil => rfl
    | cons x xs => simp [insertAt, ih]

theorem mem_insertAt (a : α) : ∀ (n : Nat) (l : List α) (y : α),
    y ∈ insertAt n a l → y = a ∨ y ∈ l := by
  intro n
  induction n with
  | zero =>
    intro l y h
    rcases List.mem_cons.mp h with h' | h'
    · exact .inl h'
    · exact .inr h'
  | succ n ih =>
    intro l y h
    cases l with
    | nil => simp [insertAt] at h; exact .inl h
    | cons x xs =>
      rcases List.mem_cons.mp h with h' | h'
      · exact .inr (h' ▸ List.mem_cons_self _ _)
      · rcases ih xs y h' with h'' | h''
        · exact .inl h''
        · exact .inr (List.mem_cons_of_mem _ h'')

theorem sorted_insertAt_bisect (s : ℚ) : ∀ (l : List ℚ),
    l.Sorted (· ≤ ·) → (insertAt (bisectLeft l s) s l).Sorted (· ≤ ·) := by
  intro l
  induction l with
  | nil => intro _; simp [bisectLeft, insertAt]
  | cons x xs ih =>
    intro h
    rw [List.sorted_cons] at h
    unfold bisectLeft
    by_cases hx : x < s
    · rw [if_pos hx]
      show (x :: insertAt (bisectLeft xs s) s xs).Sorted (· ≤ ·)
      rw [List.sorted_cons]
      refine ⟨?_, ih h.2⟩
      intro b hb
      rcases mem_insertAt s _ xs b hb with h' | h'
      · exact h' ▸ le_of_lt hx
      · exact h.1 b h'
    · rw [if_neg hx]
      show (s :: x :: xs).Sorted (· ≤ ·)
      rw [List.sorted_cons]
      refine ⟨?_, List.sorted_cons.mpr h⟩
      intro b hb
      rcases List.mem_cons.mp hb with h' | h'
      · exact h' ▸ not_lt.mp hx
      · exact le_trans (not_lt.mp hx) (h.1 b h')

theorem sorted_headI_le (l : List ℚ) (h : l.Sorted (· ≤ ·)) :
    ∀ q ∈ l, l.headI ≤ q := by
  cases l with
  | nil => intro q hq; simp at hq
  | cons x xs =>
    rw [List.sorted_cons] at h
    intro q hq
    rcases List.mem_cons.mp hq with h' | h'
    · exact h' ▸ le_refl _
    · exact h.1 q h'

theorem sorted_tail (l : List ℚ) (h : l.Sorted (· ≤ ·)) :
    l.tail.Sorted (· ≤ ·) := by
  cases l with
  | nil => exact h
  | cons x xs => exact (List.sorted_cons.mp h).2

theorem insertBound_inv (max_hits : Nat) (b : BlastHits) (taxonomy : String)
    (s : ℚ) (h : BlastHitsInv max_hits b) :
    BlastHitsInv max_hits (insertBound max_hits b taxonomy s) := by
  obtain ⟨hs, hl, hm⟩ := h
  unfold insertBound
  by_cases hover :
      max_hits < (insertAt (bisectLeft b.bitscores s) taxonomy b.names).length
  · rw [if_pos hover]
    refine ⟨sorted_tail _ (sorted_insertAt_bisect s _ hs), ?_, ?_⟩
    · simp [length_insertAt, hl]
    · simp [length_insertAt, hl]
      rw [length_insertAt] at hover
      omega
  · rw [if_neg hover]
    rw [length_insertAt] at hover
    refine ⟨sorted_insertAt_bisect s _ hs, ?_, ?_⟩
    · simp [length_insertAt, hl]
    · rw [length_insertAt]; omega

theorem addHit_cases (b : BlastHits) (taxonomy : String) (s : ℚ)
    (max_hits : Nat) (top_fraction : Option ℚ) :
    addHit b taxonomy s max_hits top_fraction = b ∨
    addHit b taxonomy s max_hits top_fraction
      = insertBound max_hits b taxonomy s := by
  unfold addHit
  cases top_fraction with
  | none =>
    dsimp only
    by_cases h : s ≠ 0
    · rw [if_pos h]; exact .inr rfl
    · rw [if_neg h]; exact .inl rfl
  | some tf =>
    dsimp only
    by_cases hg : tf ≠ 0 ∧ b.bitscores ≠ []
    · rw [if_pos hg]
      by_cases hlt : s < b.bitscores.getLastD 0 - b.bitscores.getLastD 0 * tf
      · rw [if_pos hlt]; exact .inl rfl
      · rw [if_neg hlt]
        dsimp only
        by_cases h : s ≠ 0
        · rw [if_pos h]; exact .inr rfl
        · rw [if_neg h]; exact .inl rfl
    · rw [if_neg hg]
      dsimp only
      by_cases h : s ≠ 0
      · rw [if_pos h]; exact .inr rfl
      · rw [if_neg h]; exact .inl rfl

theorem addHit_inv (b : BlastHits) (taxonomy : String) (s : ℚ)
    (max_hits : Nat) (top_fraction : Option ℚ) (h : BlastHitsInv max_hits b) :
    BlastHitsInv max_hits (addHit b taxonomy s max_hits top_fraction) := by
  rcases addHit_cases b taxonomy s max_hits top_fraction with he | he
  · rw [he]; exact h
  · rw [he]; exact insertBound_inv max_hits b taxonomy s h

theorem applyAdds_inv (max_hits : Nat) (calls : List AddCall) :
    BlastHitsInv max_hits (applyAdds max_hits calls) := by
  have aux : ∀ (cs : List AddCall) (b : BlastHits), BlastHitsInv max_hits b →
      BlastHitsInv max_hits
        (cs.foldl
          (fun b c => addHit b c.taxonomy c.bitscore max_hits c.top_fraction) b) := by
    intro cs
    induction cs with
    | nil => intro b hb; exact hb
    | cons c cs ih =>
      intro b hb
      exact ih _ (addHit_inv b c.taxonomy c.bitscore max_hits c.top_fraction hb)
  exact aux calls ⟨[], []⟩ ⟨List.sorted_nil, rfl, Nat.zero_le _⟩

/-- C8: every accumulator reachable by a sequence of add calls with a fixed
max_hits satisfies the invariant (bitscores sorted non-decreasingly, the two
deques of equal length, size at most max_hits); every further add either
discards the hit or performs the bounded insertion insertBound, whose
overflow branch pops the leftmost entry of both deques; and in the inserted
bitscore deque the leftmost entry is a minimum, so the entry evicted on
overflow is the lowest-bitscore one. -/
theorem blasthits_add_invariant (max_hits : Nat) (calls : List AddCall)
    (taxonomy : String) (s : ℚ) (top_fraction : Option ℚ) :
    BlastHitsInv max_hits (applyAdds max_hits calls) ∧
    (addHit (applyAdds max_hits calls) taxonomy s max_hits top_fraction
        = applyAdds max_hits calls ∨
      addHit (applyAdds max_hits calls) taxonomy s max_hits top_fraction
        = insertBound max_hits (applyAdds max_hits calls) taxonomy s) ∧
    (insertAt (bisectLeft (applyAdds max_hits calls).bitscores s) s
        (applyAdds max_hits calls).bitscores).Sorted (· ≤ ·) ∧
    ∀ q ∈ insertAt (bisectLeft (applyAdds max_hits calls).bitscores s) s
        (applyAdds max_hits calls).bitscores,
      (insertAt (bisectLeft (applyAdds max_hits calls).bitscores s) s
        (applyAdds max_hits calls).bitscores).headI ≤ q := by
  have hinv := applyAdds_inv max_hits calls
  have hsorted := sorted_insertAt_bisect s _ hinv.1
  exact ⟨hinv, addHit_cases _ taxonomy s max_hits top_fraction, hsorted,
    sorted_headI_le _ hsorted⟩

theorem upList_mono {tr : TreeMap} :
    ∀ {f f' : Nat} {cur : String} {l : List String},
      upList tr f cur = some l → f ≤ f' → upList tr f' cur = some l := by
  intro f
  induction f with
  | zero =>
    intro f' cur l h _
    rw [upList] at h
    by_cases hc : cur = "1"
    · rw [if_pos hc] at h
      cases f' with
      | zero => rw [upList, if_pos hc]; exact h
      | succ f' => rw [upList, if_pos hc]; exact h
    · rw [if_neg hc] at h; exact absurd h (by simp)
  | succ f ih =>
    intro f' cur l h hle
    rw [upList] at h
    by_cases hc : cur = "1"
    · rw [if_pos hc] at h
      cases f' with
      | zero => rw [upList, if_pos hc]; exact h
      | succ f' => rw [upList, if_pos hc]; exact h
    · rw [if_neg hc] at h
      cases f' with
      | zero => omega
      | succ f' =>
        rw [upList, if_neg hc]
        cases hlk : lookupT tr cur with
        | none => rw [hlk] at h; exact absurd h (by simp)
        | some nd =>
          rw [hlk] at h
          dsimp only at h ⊢
          cases hrest : upList tr f nd.parent_id with
          | none => rw [hrest] at h; exact absurd h (by simp)
          | some rest =>
            rw [hrest] at h
            rw [ih hrest (by omega)]
            exact h

theorem upList_det {tr : TreeMap} {f f' : Nat} {cur : String}
    {l l' : List String} (h : upList tr f cur = some l)
    (h' : upList tr f' cur = some l') : l = l' := by
  rcases le_total f f' with hle | hle
  · have := upList_mono h hle
    rw [this] at h'
    exact Option.some.inj h'
  · have := upList_mono h' hle
    rw [this] at h
    exact (Option.some.inj h).symm

theorem upList_suffix {tr : TreeMap} :
    ∀ (u : List String) {f : Nat} {cur : String} {y : String} {v : List String},
      upList tr f cur = some (u ++ y :: v) →
      ∃ f', upList tr f' y = some (y :: v) := by
  intro u
  induction u with
  | nil =>
    intro f cur y v h
    cases f with
    | zero =>
      rw [upList] at h
      by_cases hc : cur = "1"
      · rw [if_pos hc] at h; exact absurd (Option.some.inj h) (by simp)
      · rw [if_neg hc] at h; exact absurd h (by simp)
    | succ f =>
      rw [upList] at h
      by_cases hc : cur = "1"
      · rw [if_pos hc] at h; exact absurd (Option.some.inj h) (by simp)
      · rw [if_neg hc] at h
        cases hlk : lookupT tr cur with
        | none => rw [hlk] at h; exact absurd h (by simp)
        | some nd =>
          rw [hlk] at h
          dsimp only at h
          cases hrest : upList tr f nd.parent_id with
          | none => rw [hrest] at h; exact absurd h (by simp)
          | some rest =>
            rw [hrest] at h
            simp only [List.nil_append] at h
            simp at h
            obtain ⟨hcur, hrest'⟩ := h
            subst hcur
            subst hrest'
            refine ⟨f + 1, ?_⟩
            rw [upList, if_neg hc, hlk]
            dsimp only
            rw [hrest]
            rfl
  | cons a u' ih =>
    intro f cur y v h
    cases f with
    | zero =>
      rw [upList] at h
      by_cases hc : cur = "1"
      · rw [if_pos hc] at h; exact absurd (Option.some.inj h) (by simp)
      · rw [if_neg hc] at h; exact absurd h (by simp)
    | succ f =>
      rw [upList] at h
      by_cases hc : cur = "1"
      · rw [if_pos hc] at h; exact absurd (Option.some.inj h) (by simp)
      · rw [if_neg hc] at h
        cases hlk : lookupT tr cur with
        | none => rw [hlk] at h; exact absurd h (by simp)
        | some nd =>
          rw [hlk] at h
          dsimp only at h
          cases hrest : upList tr f nd.parent_id with
          | none => rw [hrest] at h; exact absurd h (by simp)
          | some rest =>
            rw [hrest] at h
            simp only [List.cons_append] at h
            simp at h
            obtain ⟨hcur, hrest'⟩ := h
            exact ih (hrest' ▸ hrest)

theorem upList_nodup {tr : TreeMap} :
    ∀ {f : Nat} {cur : String} {l : List String},
      upList tr f cur = some l → l.Nodup := by
  intro f
  induction f with
  | zero =>
    intro cur l h
    rw [upList] at h
    by_cases hc : cur = "1"
    · rw [if_pos hc] at h
      rw [← Option.some.inj h]
      exact List.nodup_nil
    · rw [if_neg hc] at h; exact absurd h (by simp)
  | succ f ih =>
    intro cur l h
    have horig := h
    rw [upList] at h
    by_cases hc : cur = "1"
    · rw [if_pos hc] at h
      rw [← Option.some.inj h]
      exact List.nodup_nil
    · rw [if_neg hc] at h
      cases hlk : lookupT tr cur with
      | none => rw [hlk] at h; exact absurd h (by simp)
      | some nd =>
        rw [hlk] at h
        dsimp only at h
        cases hrest : upList tr f nd.parent_id with
        | none => rw [hrest] at h; exact absurd h (by simp)
        | some rest =>
          rw [hrest] at h
          simp at h
          rw [← h]
          rw [List.nodup_cons]
          refine ⟨?_, ih hrest⟩
          intro hmem
          obtain ⟨r1, r2, hsplit⟩ := List.append_of_mem hmem
          have horig' : upList tr (f + 1) cur = some ((cur :: r1) ++ cur :: r2) := by
            rw [horig, ← h, hsplit]; rfl
          obtain ⟨f', hsuf⟩ := upList_suffix (cur :: r1) horig'
          have hdet := upList_det horig' hsuf
          have hlen := congrArg List.length hdet
          simp at hlen
          omega

theorem upList_mem_lookup {tr : TreeMap} {f : Nat} {cur : String}
    {l : List String} (h : upList tr f cur = some l) :
    ∀ x ∈ l, x ≠ "1" ∧ ∃ nd, lookupT tr x = some nd := by
  intro x hx
  obtain ⟨u, v, hsplit⟩ := List.append_of_mem hx
  obtain ⟨f', hsuf⟩ := upList_suffix u (hsplit ▸ h)
  cases f' with
  | zero =>
    rw [upList] at hsuf
    by_cases hc : x = "1"
    · rw [if_pos hc] at hsuf; exact absurd (Option.some.inj hsuf) (by simp)
    · rw [if_neg hc] at hsuf; exact absurd hsuf (by simp)
  | succ f' =>
    rw [upList] at hsuf
    by_cases hc : x = "1"
    · rw [if_pos hc] at hsuf; exact absurd (Option.some.inj hsuf) (by simp)
    · rw [if_neg hc] at hsuf
      cases hlk : lookupT tr x with
      | none => rw [hlk] at hsuf; exact absurd hsuf (by simp)
      | some nd => exact ⟨hc, nd, rfl⟩

theorem lcaWalk_no_exit {tr : TreeMap} {target : ℚ} :
    ∀ {f : Nat} {cur : String} {l : List String} (counts : String → Nat),
      upList tr f cur = some l →
      (∀ x ∈ l, ¬ target ≤ ((counts x + 1 : Nat) : ℚ)) →
      lcaWalk tr target f cur counts
        = some (.inl fun y => counts y + l.count y) := by
  intro f
  induction f with
  | zero =>
    intro cur l counts h _
    rw [upList] at h
    by_cases hcur : cur = "1"
    · rw [if_pos hcur] at h
      have hl := Option.some.inj h
      subst hl
      have hfun : (fun y => counts y + ([] : List String).count y) = counts := by
        funext y; simp
      rw [hfun, lcaWalk, if_pos hcur]
    · rw [if_neg hcur] at h; exact absurd h (by simp)
  | succ f ih =>
    intro cur l counts h hno
    have horig := h
    rw [upList] at h
    by_cases hcur : cur = "1"
    · rw [if_pos hcur] at h
      have hl := Option.some.inj h
      subst hl
      have hfun : (fun y => counts y + ([] : List String).count y) = counts := by
        funext y; simp
      rw [hfun, lcaWalk, if_pos hcur]
    · rw [if_neg hcur] at h
      cases hlk : lookupT tr cur with
      | none => rw [hlk] at h; exact absurd h (by simp)
      | some nd =>
        rw [hlk] at h
        dsimp only at h
        cases hrest : upList tr f nd.parent_id with
        | none => rw [hrest] at h; exact absurd h (by simp)
        | some rest =>
          rw [hrest] at h
          simp at h
          subst h
          have hnodup := upList_nodup horig
          rw [List.nodup_cons] at hnodup
          rw [lcaWalk, if_neg hcur]
          dsimp only
          rw [if_pos rfl]
          have hncur : ¬ target ≤ ((counts cur + 1 : Nat) : ℚ) :=
            hno cur (List.mem_cons_self _ _)
          rw [if_neg hncur, hlk]
          dsimp only
          have hyp : ∀ x ∈ rest,
              ¬ target ≤ (((if x = cur then counts x + 1 else counts x) + 1 : Nat) : ℚ) := by
            intro x hx
            have hxc : x ≠ cur := fun he => hnodup.1 (he ▸ hx)
            rw [if_neg hxc]
            exact hno x (List.mem_cons_of_mem _ hx)
          have hrec := ih (fun z => if z = cur then counts z + 1 else counts z) hrest hyp
          rw [hrec]
          congr 1
          congr 1
          funext y
          by_cases hy : y = cur
          · subst hy
            simp [List.count_cons]
            omega
          · simp only [if_neg hy]
            have hcc : (cur :: rest).count y = rest.count y := by
              rw [List.count_cons]
              simp [Ne.symm hy, hy]
            rw [hcc]

theorem lcaWalk_exit {tr : TreeMap} {target : ℚ} :
    ∀ (u : List String) {f : Nat} {cur : String} {y : String} {v : List String}
      (counts : String → Nat),
      upList tr f cur = some (u ++ y :: v) →
      target ≤ ((counts y + 1 : Nat) : ℚ) →
      (∀ x ∈ u, ¬ target ≤ ((counts x + 1 : Nat) : ℚ)) →
      ∃ nd, lookupT tr y = some nd ∧
        lcaWalk tr target f cur counts = some (.inr nd.taxonomy) := by
  intro u
  induction u with
  | nil =>
    intro f cur y v counts h hy _
    rw [List.nil_append] at h
    cases f with
    | zero =>
      rw [upList] at h
      by_cases hcur : cur = "1"
      · rw [if_pos hcur] at h; exact absurd (Option.some.inj h) (by simp)
      · rw [if_neg hcur] at h; exact absurd h (by simp)
    | succ f =>
      rw [upList] at h
      by_cases hcur : cur = "1"
      · rw [if_pos hcur] at h; exact absurd (Option.some.inj h) (by simp)
      · rw [if_neg hcur] at h
        cases hlk : lookupT tr cur with
        | none => rw [hlk] at h; exact absurd h (by simp)
        | some nd =>
          rw [hlk] at h
          dsimp only at h
          cases hrest : upList tr f nd.parent_id with
          | none => rw [hrest] at h; exact absurd h (by simp)
          | some rest =>
            rw [hrest] at h
            simp at h
            obtain ⟨hcy, hrv⟩ := h
            subst hcy
            refine ⟨nd, hlk, ?_⟩
            rw [lcaWalk, if_neg hcur]
            dsimp only
            rw [if_pos rfl, if_pos hy, hlk]
  | cons a u' ih =>
    intro f cur y v counts h hy hu
    cases f with
    | zero =>
      rw [upList] at h
      by_cases hcur : cur = "1"
      · rw [if_pos hcur] at h; exact absurd (Option.some.inj h) (by simp)
      · rw [if_neg hcur] at h; exact absurd h (by simp)
    | succ f =>
      have horig := h
      rw [upList] at h
      by_cases hcur : cur = "1"
      · rw [if_pos hcur] at h; exact absurd (Option.some.inj h) (by simp)
      · rw [if_neg hcur] at h
        cases hlk : lookupT tr cur with
        | none => rw [hlk] at h; exact absurd h (by simp)
        | some nd =>
          rw [hlk] at h
          dsimp only at h
          cases hrest : upList tr f nd.parent_id with
          | none => rw [hrest] at h; exact absurd h (by simp)
          | some rest =>
            rw [hrest] at h
            rw [List.cons_append] at h
            simp at h
            obtain ⟨hca, hrv⟩ := h
            subst hca
            have hnodup := upList_nodup horig
            have hnd := List.nodup_append.mp hnodup
            have hyc : y ≠ cur := by
              intro he
              subst he
              exact hnd.2.2 (List.mem_cons_self _ _) (List.mem_cons_self _ _)
            have hy2 : target ≤
                (((if y = cur then counts y + 1 else counts y) + 1 : Nat) : ℚ) := by
              rw [if_neg hyc]
              exact hy
            have hu2 : ∀ x ∈ u',
                ¬ target ≤ (((if x = cur then counts x + 1 else counts x) + 1 : Nat) : ℚ) := by
              intro x hx
              have hxc : x ≠ cur := by
                intro he
                subst he
                exact (List.nodup_cons.mp hnd.1).1 hx
              rw [if_neg hxc]
              exact hu x (List.mem_cons_of_mem _ hx)
            obtain ⟨nd', hnd', hw⟩ :=
              ih (fun z => if z = cur then counts z + 1 else counts z)
                (hrv ▸ hrest) hy2 hu2
            refine ⟨nd', hnd', ?_⟩
            rw [lcaWalk, if_neg hcur]
            dsimp only
            rw [if_pos rfl]
            have hna : ¬ target ≤ ((counts cur + 1 : Nat) : ℚ) :=
              hu cur (List.mem_cons_self _ _)
            rw [if_neg hna, hlk]
            dsimp only
            exact hw

theorem exists_first_split {α : Type} (P : α → Prop) :
    ∀ (l : List α), (∃ x ∈ l, P x) →
      ∃ u y v, l = u ++ y :: v ∧ P y ∧ ∀ x ∈ u, ¬ P x := by
  intro l
  induction l with
  | nil => rintro ⟨x, hx, _⟩; simp at hx
  | cons a l' ih =>
    intro hex
    by_cases ha : P a
    · exact ⟨[], a, l', rfl, ha, by simp⟩
    · have hex' : ∃ x ∈ l', P x := by
        obtain ⟨x, hx, hPx⟩ := hex
        rcases List.mem_cons.mp hx with h' | h'
        · exact absurd (h' ▸ hPx) ha
        · exact ⟨x, h', hPx⟩
      obtain ⟨u, y, v, hsplit, hPy, hu⟩ := ih hex'
      refine ⟨a :: u, y, v, by rw [hsplit]; rfl, hPy, ?_⟩
      intro x hx
      rcases List.mem_cons.mp hx with h' | h'
      · exact h' ▸ ha
      · exact hu x h'

theorem countSum_le (x : String) :
    ∀ (D : List (List String)), (∀ L ∈ D, L.Nodup) →
      (D.map fun L => L.count x).sum ≤ D.length := by
  intro D
  induction D with
  | nil => intro _; simp
  | cons L D' ih =>
    intro h
    simp only [List.map_cons, List.sum_cons, List.length_cons]
    have h1 : L.count x ≤ 1 :=
      List.nodup_iff_count_le_one.mp (h L (List.mem_cons_self _ _)) x
    have h2 := ih (fun L' hL' => h L' (List.mem_cons_of_mem _ hL'))
    omega

theorem countSum_eq_iff (x : String) :
    ∀ (D : List (List String)), (∀ L ∈ D, L.Nodup) →
      ((D.map fun L => L.count x).sum = D.length ↔ ∀ L ∈ D, x ∈ L) := by
  intro D
  induction D with
  | nil => intro _; simp
  | cons L D' ih =>
    intro h
    simp only [List.map_cons, List.sum_cons, List.length_cons]
    have h1 : L.count x ≤ 1 :=
      List.nodup_iff_count_le_one.mp (h L (List.mem_cons_self _ _)) x
    have hD' := fun L' hL' => h L' (List.mem_cons_of_mem _ hL')
    have h2 := countSum_le x D' hD'
    have hiff := ih hD'
    constructor
    · intro heq
      have hc : L.count x = 1 ∧ (D'.map fun L => L.count x).sum = D'.length := by omega
      intro L' hL'
      rcases List.mem_cons.mp hL' with h' | h'
      · subst h'
        have : L'.count x ≠ 0 := by omega
        exact List.count_pos_iff.mp (by omega)
      · exact (hiff.mp hc.2) L' h'
    · intro hall
      have hc1 : L.count x = 1 := by
        have : 0 < L.count x := List.count_pos_iff.mpr (hall L (List.mem_cons_self _ _))
        omega
      have hc2 : (D'.map fun L => L.count x).sum = D'.length :=
        hiff.mpr (fun L' hL' => hall L' (List.mem_cons_of_mem _ hL'))
      omega

set_option maxHeartbeats 1600000 in
theorem lcaList_run (tr : TreeMap) (F : Nat) :
    ∀ (S : List String) (D : List (List String)) (n : Nat),
      S ≠ [] →
      n = D.length + S.length →
      (∀ L ∈ D, L.Nodup) →
      (∀ t ∈ S, ∃ l, chainOf tr F t = some l) →
      ∃ res,
        lcaList tr (n : ℚ) F S (fun x => (D.map fun L => L.count x).sum) = some res ∧
        ((∃ x nd, lookupT tr x = some nd ∧ res = nd.taxonomy ∧
            ((∀ L ∈ D, x ∈ L) ∧ ∀ t ∈ S, InChain tr F t x) ∧
            ∀ c, ((∀ L ∈ D, c ∈ L) ∧ ∀ t ∈ S, InChain tr F t c) →
              ∀ f1 f2 lc lx, upList tr f1 c = some lc → upList tr f2 x = some lx →
                lc.length ≤ lx.length) ∨
          (res = "root" ∧ ∀ c, ¬ ((∀ L ∈ D, c ∈ L) ∧ ∀ t ∈ S, InChain tr F t c))) := by
  intro S
  induction S with
  | nil => intro D n hS _ _ _; exact absurd rfl hS
  | cons t S' ih =>
    intro D n _ hn hD hCh
    obtain ⟨l, hchain0⟩ := hCh t (List.mem_cons_self _ _)
    have hchain0' := hchain0
    unfold chainOf at hchain0'
    cases hlkt : lookupT tr t with
    | none => rw [hlkt] at hchain0'; exact absurd hchain0' (by simp)
    | some nd =>
      rw [hlkt] at hchain0'
      have hup : upList tr F nd.node_id = some l := by
        simpa using hchain0'
      have hlnodup := upList_nodup hup
      cases S' with
      | nil =>
        have hn' : n = D.length + 1 := by simpa using hn
        by_cases hex : ∃ x ∈ l, ∀ L ∈ D, x ∈ L
        · obtain ⟨u, y, v, hsplit, hPy, hu⟩ :=
            exists_first_split (fun x => ∀ L ∈ D, x ∈ L) l hex
          subst hsplit
          have hcy : (D.map fun L => L.count y).sum = D.length :=
            (countSum_eq_iff y D hD).mpr hPy
          have hpy : (n : ℚ) ≤ (((D.map fun L => L.count y).sum + 1 : Nat) : ℚ) := by
            have : n ≤ (D.map fun L => L.count y).sum + 1 := by omega
            exact_mod_cast this
          have hpu : ∀ x ∈ u,
              ¬ (n : ℚ) ≤ (((D.map fun L => L.count x).sum + 1 : Nat) : ℚ) := by
            intro x hx hcon
            have h1 := countSum_le x D hD
            have h2 : (D.map fun L => L.count x).sum ≠ D.length := by
              intro he; exact hu x hx ((countSum_eq_iff x D hD).mp he)
            have h3 : n ≤ (D.map fun L => L.count x).sum + 1 := by exact_mod_cast hcon
            omega
          obtain ⟨nd', hnd', hw⟩ := lcaWalk_exit u
            (fun x => (D.map fun L => L.count x).sum) hup hpy hpu
          refine ⟨nd'.taxonomy, ?_, ?_⟩
          · rw [lcaList, hlkt]
            dsimp only
            rw [hw]
          · left
            refine ⟨y, nd', hnd', rfl, ⟨hPy, ?_⟩, ?_⟩
            · intro t' ht'
              have ht'' : t' = t := by simpa using ht'
              subst ht''
              exact ⟨u ++ y :: v, hchain0, by simp⟩
            · rintro c ⟨hcD, hcS⟩ f1 f2 lc lx hlc hlx
              obtain ⟨l2, hl2, hcl2⟩ := hcS t (List.mem_cons_self _ _)
              have hl2l : l2 = u ++ y :: v :=
                Option.some.inj (hl2.symm.trans hchain0)
              subst hl2l
              have hcu : c ∉ u := fun hm => hu c hm hcD
              have hcyv : c ∈ y :: v := by
                rcases List.mem_append.mp hcl2 with h' | h'
                · exact absurd h' hcu
                · exact h'
              obtain ⟨fy, hfy⟩ := upList_suffix u hup
              have hlxeq : lx = y :: v := upList_det hlx hfy
              obtain ⟨u2, v2, hsplit2⟩ := List.append_of_mem hcyv
              have hch2 := hup
              rw [hsplit2, ← List.append_assoc] at hch2
              obtain ⟨fc, hfc⟩ := upList_suffix (u ++ u2) hch2
              have hlceq : lc = c :: v2 := upList_det hlc hfc
              have hlen := congrArg List.length hsplit2
              simp only [List.length_cons, List.length_append] at hlen
              rw [hlxeq, hlceq]
              simp only [List.length_cons]
              omega
        · have hno : ∀ x ∈ l,
              ¬ (n : ℚ) ≤ (((D.map fun L => L.count x).sum + 1 : Nat) : ℚ) := by
            intro x hx hcon
            have h1 := countSum_le x D hD
            have h2 : (D.map fun L => L.count x).sum ≠ D.length := by
              intro he
              exact hex ⟨x, hx, (countSum_eq_iff x D hD).mp he⟩
            have h3 : n ≤ (D.map fun L => L.count x).sum + 1 := by exact_mod_cast hcon
            omega
          have hwalk := lcaWalk_no_exit
            (fun x => (D.map fun L => L.count x).sum) hup hno
          refine ⟨"root", ?_, ?_⟩
          · rw [lcaList, hlkt]
            dsimp only
            rw [hwalk]
            dsimp only
            rw [lcaList]
          · right
            refine ⟨rfl, ?_⟩
            rintro c ⟨hcD, hcS⟩
            obtain ⟨l2, hl2, hcl2⟩ := hcS t (List.mem_cons_self _ _)
            have hl2l : l2 = l := Option.some.inj (hl2.symm.trans hchain0)
            subst hl2l
            exact hex ⟨c, hcl2, hcD⟩
      | cons t2 S'' =>
        have hno : ∀ x ∈ l,
            ¬ (n : ℚ) ≤ (((D.map fun L => L.count x).sum + 1 : Nat) : ℚ) := by
          intro x hx hcon
          have h1 := countSum_le x D hD
          have h2 : n ≤ (D.map fun L => L.count x).sum + 1 := by exact_mod_cast hcon
          have hn2 : n = D.length + S''.length + 2 := by
            rw [hn, List.length_cons, List.length_cons]
            omega
          omega
        have hwalk := lcaWalk_no_exit
          (fun x => (D.map fun L => L.count x).sum) hup hno
        have hcnt : (fun y => (D.map fun L => L.count y).sum + l.count y)
            = fun y => ((D ++ [l]).map fun L => L.count y).sum := by
          funext y
          simp
        have hDl : ∀ L ∈ D ++ [l], L.Nodup := by
          intro L hL
          rcases List.mem_append.mp hL with h' | h'
          · exact hD L h'
          · have : L = l := by simpa using h'
            exact this ▸ hlnodup
        have hlen2 : n = (D ++ [l]).length + (t2 :: S'').length := by
          rw [hn]
          simp only [List.length_cons, List.length_append, List.length_nil]
          omega
        obtain ⟨res, hrun, hspec⟩ := ih (D ++ [l]) n (by simp) hlen2 hDl
          (fun t' ht' => hCh t' (List.mem_cons_of_mem _ ht'))
        refine ⟨res, ?_, ?_⟩
        · rw [lcaList, hlkt]
          dsimp only
          rw [hwalk]
          dsimp only
          rw [hcnt]
          exact hrun
        · have hequiv : ∀ x : String,
              ((∀ L ∈ D ++ [l], x ∈ L) ∧ ∀ t' ∈ t2 :: S'', InChain tr F t' x) ↔
              ((∀ L ∈ D, x ∈ L) ∧ ∀ t' ∈ t :: t2 :: S'', InChain tr F t' x) := by
            intro x
            constructor
            · rintro ⟨hDlx, hSx⟩
              refine ⟨fun L hL => hDlx L (List.mem_append_left _ hL), ?_⟩
              intro t' ht'
              rcases List.mem_cons.mp ht' with h' | h'
              · subst h'
                exact ⟨l, hchain0, hDlx l (by simp)⟩
              · exact hSx t' h'
            · rintro ⟨hDx, hSx⟩
              refine ⟨?_, fun t' ht' => hSx t' (List.mem_cons_of_mem _ ht')⟩
              intro L hL
              rcases List.mem_append.mp hL with h' | h'
              · exact hDx L h'
              · have hLl : L = l := by simpa using h'
                subst hLl
                obtain ⟨l2, hl2, hxl2⟩ := hSx t (List.mem_cons_self _ _)
                have hl2l : l2 = L := Option.some.inj (hl2.symm.trans hchain0)
                exact hl2l ▸ hxl2
          rcases hspec with ⟨x, nd2, hnd2, hres, hcom, hdeep⟩ | ⟨hres, hnc⟩
          · exact .inl ⟨x, nd2, hnd2, hres, (hequiv x).mp hcom,
              fun c hc => hdeep c ((hequiv c).mpr hc)⟩
          · exact .inr ⟨hres, fun c hc => hnc c ((hequiv c).mpr hc)⟩

/-- C5: on a list of taxa that are all present and whose bottom-up walks all
terminate at the root, lca with threshold 1 returns either the name of a node
that lies on the walk (the non-root ancestors-or-self chain) of every taxon
in the list and is deepest among all such common chain elements (depth being
the length of its own walk to the root), or the literal string "root" when
the taxa share no non-root chain element, i.e. when no ancestor ever reaches
the count target. -/
theorem lca_threshold_one_correct (tr : TreeMap) (F : Nat) (taxa : List String)
    (hne : taxa ≠ [])
    (hwf : ∀ t ∈ taxa, ∃ l, chainOf tr F t = some l) :
    ∃ res, lca tr F taxa 1 = some res ∧
      ((∃ x nd, lookupT tr x = some nd ∧ res = nd.taxonomy ∧
          (∀ t ∈ taxa, InChain tr F t x) ∧
          ∀ c, (∀ t ∈ taxa, InChain tr F t c) →
            ∀ f1 f2 lc lx, upList tr f1 c = some lc → upList tr f2 x = some lx →
              lc.length ≤ lx.length) ∨
        (res = "root" ∧ ∀ c, ¬ ∀ t ∈ taxa, InChain tr F t c)) := by
  obtain ⟨res, hrun, hspec⟩ :=
    lcaList_run tr F taxa [] taxa.length hne (by simp) (by simp) hwf
  refine ⟨res, ?_, ?_⟩
  · unfold lca
    have hc1 : clampThreshold 1 = 1 := by norm_num [clampThreshold]
    rw [hc1, mul_one]
    exact hrun
  · rcases hspec with ⟨x, nd, hnd, hres, ⟨_, hcom⟩, hdeep⟩ | ⟨hres, hnc⟩
    · exact .inl ⟨x, nd, hnd, hres, hcom, fun c hc => hdeep c ⟨by simp, hc⟩⟩
    · exact .inr ⟨hres, fun c hc => hnc c ⟨by simp, hc⟩⟩

/-- Witness for lca_threshold_one_correct: the sample tree with taxa proteo
and gamma (ids 3 and 4, walks [3, 2] and [4, 3, 2]). -/
theorem lca_threshold_one_correct_witness :
    ∃ res, lca sampleTree 8 ["proteo", "gamma"] 1 = some res ∧
      ((∃ x nd, lookupT sampleTree x = some nd ∧ res = nd.taxonomy ∧
          (∀ t ∈ ["proteo", "gamma"], InChain sampleTree 8 t x) ∧
          ∀ c, (∀ t ∈ ["proteo", "gamma"], InChain sampleTree 8 t c) →
            ∀ f1 f2 lc lx, upList sampleTree f1 c = some lc →
              upList sampleTree f2 x = some lx → lc.length ≤ lx.length) ∨
        (res = "root" ∧
          ∀ c, ¬ ∀ t ∈ ["proteo", "gamma"], InChain sampleTree 8 t c)) :=
  lca_threshold_one_correct sampleTree 8 ["proteo", "gamma"] (by decide)
    (by
      intro t ht
      rcases List.mem_cons.mp ht with h | h
      · exact ⟨["3", "2"], by rw [h]; rfl⟩
      · have h' : t = "gamma" := by simpa using h
        exact ⟨["4", "3", "2"], by rw [h']; rfl⟩)
